import Mathlib

/-!
# Shallow embedding of the Daring Divas curator (`curator.js`)

The script classifies NFT images against a store of master perceptual hashes
(strings compared character by character), rebuilds the censored membership
list from scratch on every run, and republishes the list to a Gist only when
the sorted key sequences of the old and new lists differ.

JS values are modelled as follows: strings become `List Char` (for signatures)
or `String` (for ids and names); JS string indexing `s[i]`, which yields
`undefined` out of bounds, becomes `l[i]?`; objects used as string-keyed maps
become insertion-ordered association lists; a fallible collaborator call
becomes an `Except` value recording the outcome it had during the run.
-/

namespace Curator

/-- A perceptual-hash signature as the script sees it: the character sequence
of a JS string (`pHash()` output or a `master-hashes.json` entry). -/
abbrev Signature := List Char

/-- The constant `SIMILARITY_THRESHOLD = 5` (curator.js line 86). -/
def SIMILARITY_THRESHOLD : Nat := 5

/-- Function `calculateHammingDistance` (curator.js lines 90-98): loop `i` from `0` to
`hash1.length - 1`, counting positions where `hash1[i] !== hash2[i]`.  JS
indexing past the end of a string yields `undefined`, which is `!==` every
character, so positions of `hash1` beyond the end of `hash2` all count and
positions of `hash2` beyond the end of `hash1` are never looked at. -/
def calculateHammingDistance (hash1 hash2 : Signature) : Nat :=
  (List.range hash1.length).countP (fun i => hash1[i]? != hash2[i]?)

/-- The matching loop inside `runCurator` (curator.js lines 168-177): iterate
the master-hash store in order; the first reference whose distance is
`<= threshold` is the match and the loop `break`s; if none qualifies the item
is not recorded.  Returns the matching reference name and its distance. -/
def classify (newHash : Signature) (store : List (String × Signature))
    (threshold : Nat) : Option (String × Nat) :=
  match store with
  | [] => none
  | (name, masterHash) :: rest =>
    let distance := calculateHammingDistance newHash masterHash
    if distance ≤ threshold then some (name, distance)
    else classify newHash rest threshold

/-- An enumerated NFT: its token id and its (possibly absent) `tokenUri`. -/
structure Nft where
  tokenId : String
  tokenUri : Option String

/-- One item together with the outcomes its collaborator calls had during this
run: the metadata fetch (`.ok` carries `data.image`, `none` when the field is
absent) and the image fetch / perceptual hash computation. -/
structure ItemRun where
  nft : Nft
  metadata : Except String (Option String)
  imageHash : Except String Signature

/-- The body of the per-item loop of `runCurator` (curator.js lines 143-181):
skip when `tokenUri` is absent, when the metadata fetch throws (caught by the
per-item `try`), when the live metadata has no image URL, or when reading or
hashing the image throws; otherwise classify against the master hashes and
report the token id to record on a match. -/
def processItem (masterHashes : List (String × Signature)) (item : ItemRun) :
    Option String :=
  match item.nft.tokenUri with
  | none => none
  | some _ =>
    match item.metadata with
    | .error _ => none
    | .ok none => none
    | .ok (some _) =>
      match item.imageHash with
      | .error _ => none
      | .ok newHash =>
        match classify newHash masterHashes SIMILARITY_THRESHOLD with
        | some _ => some item.nft.tokenId
        | none => none

/-- JS `Object.keys` of an object modelled as an association list. -/
def objectKeys (obj : List (String × Bool)) : List String := obj.map Prod.fst

/-- JS `obj[k] = v`: overwrite in place when the key exists, append otherwise. -/
def setKey (obj : List (String × Bool)) (k : String) (v : Bool) :
    List (String × Bool) :=
  if k ∈ objectKeys obj then obj.map (fun p => if p.1 = k then (p.1, v) else p)
  else obj ++ [(k, v)]

/-- The evaluation loop of `runCurator`: `newCensoredList` starts empty
(curator.js line 134) and each item that matches a master hash is recorded via
`newCensoredList[nft.tokenId] = true` (line 174). -/
def buildNewCensoredList (masterHashes : List (String × Signature))
    (items : List ItemRun) : List (String × Bool) :=
  items.foldl
    (fun acc item =>
      match processItem masterHashes item with
      | some id => setKey acc id true
      | none => acc)
    []

/-- A per-item failure as the spec enumerates them: the metadata fetch threw,
the live metadata had no image URL, or fetching/hashing the image threw.  All
three routes land either in a `continue` or in the per-item `catch`. -/
def itemFailure (item : ItemRun) : Prop :=
  (∃ e, item.metadata = .error e)
  ∨ item.metadata = .ok none
  ∨ (∃ e, item.imageHash = .error e)

/-- The outcome of the Gist fetch inside `getCurrentCensoredList`: the request
can throw, or return a response in which `files[GIST_FILENAME]` is absent, or
present with content whose `JSON.parse` either throws or yields a list. -/
inductive FetchOutcome where
  | fetchError (msg : String)
  | response (gistFile : Option (Except String (List (String × Bool))))

/-- Function `getCurrentCensoredList` (curator.js lines 100-115): any thrown error is
caught and yields the empty list, an absent `files[GIST_FILENAME]` yields the
empty list, and only a successfully parsed content is returned. -/
def getCurrentCensoredList : FetchOutcome → List (String × Bool)
  | .fetchError _ => []
  | .response none => []
  | .response (some (.error _)) => []
  | .response (some (.ok list)) => list

/-- The hexadecimal digit character for `n < 16`, lowercase as in JS. -/
def hexDigit (n : Nat) : Char :=
  if n < 10 then Char.ofNat (48 + n) else Char.ofNat (87 + n)

/-- One character of the ECMAScript `QuoteJSONString` operation used by
`JSON.stringify`: `"` and `\` are backslash-escaped, the named control
characters get their short escapes, other control characters become
`\u00XX`, and every other character is emitted as itself. -/
def jsonEscapeChar (c : Char) : List Char :=
  if c = '"' then ['\\', '"']
  else if c = '\\' then ['\\', '\\']
  else if c = Char.ofNat 8 then ['\\', 'b']
  else if c = Char.ofNat 9 then ['\\', 't']
  else if c = Char.ofNat 10 then ['\\', 'n']
  else if c = Char.ofNat 12 then ['\\', 'f']
  else if c = Char.ofNat 13 then ['\\', 'r']
  else if c.toNat < 32 then
    ['\\', 'u', '0', '0', hexDigit (c.toNat / 16), hexDigit (c.toNat % 16)]
  else [c]

/-- The `QuoteJSONString` operation applied to a whole string body (without the outer
quotes). -/
def jsonEscape (s : List Char) : List Char := (s.map jsonEscapeChar).flatten

/-- The encoding of the elements after the first of a JSON string array:
each is preceded by a comma, and the array is closed with `]`. -/
def jsonEncodeTail : List (List Char) → List Char
  | [] => [']']
  | s :: rest => ',' :: '"' :: (jsonEscape s ++ '"' :: jsonEncodeTail rest)

/-- JS `JSON.stringify` of an array of strings (no indent argument, as on
curator.js line 186): `[`, the comma-separated quoted escaped elements,
`]`. -/
def jsonEncodeArr : List (List Char) → List Char
  | [] => ['[', ']']
  | s :: rest => '[' :: '"' :: (jsonEscape s ++ '"' :: jsonEncodeTail rest)

/-- JS `JSON.stringify(keys)` for an array of strings, as a character
sequence. -/
def jsonStringify (xs : List String) : List Char :=
  jsonEncodeArr (xs.map String.data)

/-- JS `Array.prototype.sort()` on an array of strings: sort the strings
lexicographically. -/
def sortKeys (keys : List String) : List String :=
  keys.mergeSort (fun a b => decide (a ≤ b))

/-- The reconciliation step (curator.js lines 183-186): sort the key arrays of
the old and new censored lists and compare their `JSON.stringify` outputs with
`!==`. -/
def reconcileChanged (currentCensoredList newCensoredList : List (String × Bool)) :
    Bool :=
  let oldKeys := sortKeys (objectKeys currentCensoredList)
  let newKeys := sortKeys (objectKeys newCensoredList)
  jsonStringify oldKeys != jsonStringify newKeys

/-- What a curator run produces: the rebuilt censored list and, when the
reconciliation decided `changed`, the list handed to the Gist `PATCH`. -/
structure RunResult where
  newCensoredList : List (String × Bool)
  publishedList : Option (List (String × Bool))

/-- Function `runCurator` (curator.js lines 117-198) restricted to its decision core:
fetch the previous list, rebuild the new list from scratch over the enumerated
items, and `PATCH` the Gist with the new list exactly when the sorted key
sequences differ (lines 186-197). -/
def runCurator (masterHashes : List (String × Signature)) (fetch : FetchOutcome)
    (items : List ItemRun) : RunResult :=
  let currentCensoredList := getCurrentCensoredList fetch
  let newCensoredList := buildNewCensoredList masterHashes items
  if reconcileChanged currentCensoredList newCensoredList then
    { newCensoredList := newCensoredList, publishedList := some newCensoredList }
  else
    { newCensoredList := newCensoredList, publishedList := none }

/-! ## A decoder for the JSON string-array encoding

`reconcileChanged` compares `JSON.stringify` outputs with `!==`, while the
specification speaks of equality of the sorted key sequences themselves.  The
two coincide because the encoding is injective, which we prove by exhibiting a
(fueled) decoder and a round-trip lemma. -/

/-- The value of a lowercase hexadecimal digit character, inverse of
`hexDigit`. -/
def hexVal (c : Char) : Nat :=
  if c.toNat ≥ 97 then c.toNat - 87 else c.toNat - 48

/-- The character a short JSON escape stands for. -/
def unescCode (c : Char) : Char :=
  if c = 'b' then Char.ofNat 8
  else if c = 't' then Char.ofNat 9
  else if c = 'n' then Char.ofNat 10
  else if c = 'f' then Char.ofNat 12
  else if c = 'r' then Char.ofNat 13
  else c

/-- Fueled decoder for a quoted JSON string body: consumes characters up to
and including the closing quote and returns the decoded string together with
the unconsumed input. -/
def decodeStr : Nat → List Char → Option (List Char × List Char)
  | 0, _ => none
  | _ + 1, [] => none
  | fuel + 1, c :: rest =>
    if c = '"' then some ([], rest)
    else if c = '\\' then
      match rest with
      | [] => none
      | e :: rest2 =>
        if e = 'u' then
          match rest2 with
          | h1 :: h2 :: h3 :: h4 :: rest3 =>
            match decodeStr fuel rest3 with
            | some (s, r) =>
              some (Char.ofNat (((hexVal h1 * 16 + hexVal h2) * 16 + hexVal h3) * 16
                + hexVal h4) :: s, r)
            | none => none
          | _ => none
        else
          match decodeStr fuel rest2 with
          | some (s, r) => some (unescCode e :: s, r)
          | none => none
    else
      match decodeStr fuel rest with
      | some (s, r) => some (c :: s, r)
      | none => none

/-- Fueled decoder for the part of a JSON string array after its first
element: either the closing bracket, or a comma followed by a quoted element
and the rest. -/
def decodeTail : Nat → List Char → Option (List (List Char))
  | _, [] => none
  | 0, c :: rest => if c = ']' ∧ rest = [] then some [] else none
  | fuel + 1, c :: rest =>
    if c = ']' then (if rest = [] then some [] else none)
    else if c = ',' then
      match rest with
      | [] => none
      | q :: rest2 =>
        if q = '"' then
          match decodeStr fuel rest2 with
          | some (s, r) =>
            match decodeTail fuel r with
            | some l => some (s :: l)
            | none => none
          | none => none
        else none
    else none

/-- Fueled decoder for a whole JSON string array. -/
def decodeArr (fuel : Nat) (input : List Char) : Option (List (List Char)) :=
  match input with
  | [] => none
  | c :: rest =>
    if c = '[' then
      match rest with
      | [] => none
      | d :: rest2 =>
        if d = ']' ∧ rest2 = [] then some []
        else if d = '"' then
          match decodeStr fuel rest2 with
          | some (s, r) =>
            match decodeTail fuel r with
            | some l => some (s :: l)
            | none => none
          | none => none
        else none
    else none

/-- Fuel sufficient to decode the encoding of `xs`. -/
def fuelNeed : List (List Char) → Nat
  | [] => 1
  | s :: rest => s.length + 2 + fuelNeed rest

theorem one_le_fuelNeed (xs : List (List Char)) : 1 ≤ fuelNeed xs := by
  cases xs with
  | nil => simp [fuelNeed]
  | cons s rest => simp only [fuelNeed]; omega

theorem hexVal_hexDigit (n : Nat) (h : n < 16) : hexVal (hexDigit n) = n := by
  interval_cases n <;> decide

theorem decodeStr_escape (s rest : List Char) :
    ∀ fuel : Nat, s.length < fuel →
      decodeStr fuel (jsonEscape s ++ '"' :: rest) = some (s, rest) := by
  induction s with
  | nil =>
    intro fuel h
    obtain ⟨f, rfl⟩ : ∃ f, fuel = f + 1 := ⟨fuel - 1, by omega⟩
    simp [jsonEscape, decodeStr]
  | cons c s ih =>
    intro fuel h
    obtain ⟨f, rfl⟩ : ∃ f, fuel = f + 1 := ⟨fuel - 1, by omega⟩
    have hf : s.length < f := by simp at h; omega
    have hrec := ih f hf
    by_cases h1 : c = '"'
    · subst h1; simp [jsonEscape, jsonEscapeChar, decodeStr, unescCode] at hrec ⊢
      simp [hrec]
    · by_cases h2 : c = '\\'
      · subst h2; simp [jsonEscape, jsonEscapeChar, decodeStr, unescCode] at hrec ⊢
        simp [hrec]
      · by_cases h3 : c = Char.ofNat 8
        · subst h3; simp [jsonEscape, jsonEscapeChar, decodeStr, unescCode] at hrec ⊢
          simp [hrec]
        · by_cases h4 : c = Char.ofNat 9
          · subst h4; simp [jsonEscape, jsonEscapeChar, decodeStr, unescCode] at hrec ⊢
            simp [hrec]
          · by_cases h5 : c = Char.ofNat 10
            · subst h5; simp [jsonEscape, jsonEscapeChar, decodeStr, unescCode] at hrec ⊢
              simp [hrec]
            · by_cases h6 : c = Char.ofNat 12
              · subst h6; simp [jsonEscape, jsonEscapeChar, decodeStr, unescCode] at hrec ⊢
                simp [hrec]
              · by_cases h7 : c = Char.ofNat 13
                · subst h7; simp [jsonEscape, jsonEscapeChar, decodeStr, unescCode] at hrec ⊢
                  simp [hrec]
                · by_cases h8 : c.toNat < 32
                  · simp only [jsonEscape, List.map_cons, List.flatten_cons,
                      jsonEscapeChar, if_neg h1, if_neg h2, if_neg h3, if_neg h4,
                      if_neg h5, if_neg h6, if_neg h7, if_pos h8] at hrec ⊢
                    simp [decodeStr, hrec]
                    rw [hexVal_hexDigit _ (by omega),
                      hexVal_hexDigit _ (Nat.mod_lt _ (by norm_num))]
                    have h0 : hexVal '0' = 0 := by decide
                    have hv : ((hexVal '0' * 16 + hexVal '0') * 16 + c.toNat / 16) * 16
                        + c.toNat % 16 = c.toNat := by rw [h0]; omega
                    rw [hv, Char.ofNat_toNat]
                  · simp only [jsonEscape, List.map_cons, List.flatten_cons,
                      jsonEscapeChar, if_neg h1, if_neg h2, if_neg h3, if_neg h4,
                      if_neg h5, if_neg h6, if_neg h7, if_neg h8] at hrec ⊢
                    simp [decodeStr, h1, h2, hrec]

theorem decodeTail_encode (xs : List (List Char)) :
    ∀ fuel : Nat, fuelNeed xs ≤ fuel →
      decodeTail fuel (jsonEncodeTail xs) = some xs := by
  induction xs with
  | nil =>
    intro fuel h
    cases fuel with
    | zero => simp [jsonEncodeTail, decodeTail]
    | succ f => simp [jsonEncodeTail, decodeTail]
  | cons s xs ih =>
    intro fuel h
    have h1 := one_le_fuelNeed xs
    simp only [fuelNeed] at h
    obtain ⟨f, rfl⟩ : ∃ f, fuel = f + 1 := ⟨fuel - 1, by omega⟩
    simp only [jsonEncodeTail]
    simp [decodeTail, decodeStr_escape s (jsonEncodeTail xs) f (by omega),
      ih f (by omega)]

theorem decodeArr_encode (xs : List (List Char)) :
    ∀ fuel : Nat, fuelNeed xs ≤ fuel →
      decodeArr fuel (jsonEncodeArr xs) = some xs := by
  cases xs with
  | nil => intro fuel h; simp [jsonEncodeArr, decodeArr]
  | cons s xs =>
    intro fuel h
    have h1 := one_le_fuelNeed xs
    simp only [fuelNeed] at h
    simp only [jsonEncodeArr]
    simp [decodeArr, decodeStr_escape s (jsonEncodeTail xs) fuel (by omega),
      decodeTail_encode xs fuel (by omega)]

theorem jsonEncodeArr_inj {xs ys : List (List Char)}
    (h : jsonEncodeArr xs = jsonEncodeArr ys) : xs = ys := by
  have hx := decodeArr_encode xs (fuelNeed xs + fuelNeed ys) (by omega)
  have hy := decodeArr_encode ys (fuelNeed xs + fuelNeed ys) (by omega)
  rw [h, hy] at hx
  exact (Option.some_inj.mp hx).symm

theorem jsonStringify_inj {xs ys : List String}
    (h : jsonStringify xs = jsonStringify ys) : xs = ys :=
  List.map_injective_iff.mpr (fun _ _ hab => String.ext hab)
    (jsonEncodeArr_inj h)

/-! ## Sorting lemmas -/

theorem sortKeys_perm (l : List String) : (sortKeys l).Perm l :=
  List.mergeSort_perm l _

theorem sortKeys_eq_iff (l₁ l₂ : List String) :
    sortKeys l₁ = sortKeys l₂ ↔ l₁.Perm l₂ := by
  constructor
  · intro h
    exact (sortKeys_perm l₁).symm.trans (h ▸ sortKeys_perm l₂)
  · intro h
    have trans : ∀ a b c : String, decide (a ≤ b) → decide (b ≤ c) →
        decide (a ≤ c) := by
      intro a b c hab hbc
      simp only [decide_eq_true_eq] at *
      exact le_trans hab hbc
    have total : ∀ a b : String, decide (a ≤ b) || decide (b ≤ a) := by
      intro a b
      rcases le_total a b with h' | h' <;> simp [h']
    have s₁ := List.sorted_mergeSort trans total l₁
    have s₂ := List.sorted_mergeSort trans total l₂
    have hperm : (sortKeys l₁).Perm (sortKeys l₂) :=
      ((sortKeys_perm l₁).trans h).trans (sortKeys_perm l₂).symm
    haveI : IsAntisymm String (fun a b => decide (a ≤ b) = true) := by
      constructor
      intro a b hab hba
      simp only [decide_eq_true_eq] at hab hba
      exact le_antisymm hab hba
    exact List.eq_of_perm_of_sorted hperm s₁ s₂

/-! ## Recursion lemmas for `calculateHammingDistance` -/

theorem ham_nil_left (bs : Signature) : calculateHammingDistance [] bs = 0 := by
  simp [calculateHammingDistance]

theorem ham_nil_right (as : Signature) :
    calculateHammingDistance as [] = as.length := by
  rw [calculateHammingDistance]
  rw [show (List.range as.length).countP (fun i => as[i]? != ([] : Signature)[i]?)
      = (List.range as.length).length from ?_]
  · simp
  · rw [List.countP_eq_length]
    intro i hi
    rw [List.mem_range] at hi
    simp [List.getElem?_eq_getElem hi]

theorem ham_cons_cons (a b : Char) (as bs : Signature) :
    calculateHammingDistance (a :: as) (b :: bs)
      = (if a = b then 0 else 1) + calculateHammingDistance as bs := by
  simp only [calculateHammingDistance, List.length_cons, List.range_succ_eq_map,
    List.countP_cons, List.countP_map]
  by_cases hab : a = b <;>
    simp [hab, Function.comp_def, Nat.add_comm]

/-! ## Reconciliation lemmas -/

theorem jsonStringify_eq_iff {xs ys : List String} :
    jsonStringify xs = jsonStringify ys ↔ xs = ys :=
  ⟨jsonStringify_inj, fun h => h ▸ rfl⟩

theorem reconcileChanged_true_iff (prev cur : List (String × Bool)) :
    reconcileChanged prev cur = true ↔
      sortKeys (objectKeys prev) ≠ sortKeys (objectKeys cur) := by
  simp only [reconcileChanged, bne_iff_ne, ne_eq, jsonStringify_eq_iff]

theorem reconcileChanged_false_iff (prev cur : List (String × Bool)) :
    reconcileChanged prev cur = false ↔
      (objectKeys prev).Perm (objectKeys cur) := by
  rw [← Bool.not_eq_true, reconcileChanged_true_iff, not_not, sortKeys_eq_iff]

theorem objectKeys_setKey_new (obj : List (String × Bool)) (k : String) (v : Bool)
    (hk : k ∉ objectKeys obj) :
    objectKeys (setKey obj k v) = objectKeys obj ++ [k] := by
  simp only [setKey, if_neg hk]
  simp [objectKeys]

/-! ## Claim theorems -/

/-- C1: the reconciliation step sorts the string keys of both membership sets
and reports `changed = true` exactly when the two sorted key sequences are not
equal; consequently `reconcile(S, S)` reports unchanged for any set `S`, two
sets whose keys are permutations of one another (same members, different
insertion order) compare as unchanged, and adding or removing a member (a key
not already present in `S`) yields `changed = true`. -/
theorem reconcile_changed_iff_sorted_keys_differ
    (prev cur S : List (String × Bool)) (k : String) :
    (reconcileChanged prev cur = true ↔
      sortKeys (objectKeys prev) ≠ sortKeys (objectKeys cur))
    ∧ reconcileChanged S S = false
    ∧ ((objectKeys prev).Perm (objectKeys cur) →
        reconcileChanged prev cur = false)
    ∧ (k ∉ objectKeys S →
        reconcileChanged S (setKey S k true) = true
        ∧ reconcileChanged (setKey S k true) S = true) := by
  refine ⟨reconcileChanged_true_iff prev cur, ?_, ?_, ?_⟩
  · exact (reconcileChanged_false_iff S S).mpr (List.Perm.refl _)
  · exact fun h => (reconcileChanged_false_iff prev cur).mpr h
  · intro hk
    have hkeys := objectKeys_setKey_new S k true hk
    constructor
    · rw [reconcileChanged_true_iff]
      intro heq
      have hlen := ((sortKeys_eq_iff _ _).mp heq).length_eq
      rw [hkeys] at hlen
      simp at hlen
    · rw [reconcileChanged_true_iff]
      intro heq
      have hlen := ((sortKeys_eq_iff _ _).mp heq).length_eq
      rw [hkeys] at hlen
      simp at hlen

/-- Witness for `reconcile_changed_iff_sorted_keys_differ`: two insertion
orders of the same two keys compare as unchanged, and adding key `"3"` to a
two-element set yields `changed = true`. -/
theorem reconcile_changed_iff_sorted_keys_differ_witness :
    reconcileChanged [("1", true), ("2", true)] [("2", true), ("1", true)] = false
    ∧ reconcileChanged [("1", true), ("2", true)]
        (setKey [("1", true), ("2", true)] "3" true) = true := by
  constructor
  · exact (reconcile_changed_iff_sorted_keys_differ
      [("1", true), ("2", true)] [("2", true), ("1", true)] [] "0").2.2.1
      (by decide)
  · exact ((reconcile_changed_iff_sorted_keys_differ
      [] [] [("1", true), ("2", true)] "3").2.2.2 (by decide)).1

theorem classify_cons (sig : Signature) (nm : String) (mh : Signature)
    (rest : List (String × Signature)) (th : Nat) :
    classify sig ((nm, mh) :: rest) th =
      if calculateHammingDistance sig mh ≤ th
      then some (nm, calculateHammingDistance sig mh)
      else classify sig rest th := rfl

/-- C2: classification returns the first reference in store iteration order
whose distance is within the threshold; the loop breaks there, so the result
neither depends on nor inspects the references after the match, even when a
later reference is at an equal or smaller distance. -/
theorem classify_first_match_shortcircuits (sig : Signature) :
    ∀ (pre : List (String × Signature)) (name : String) (mh : Signature)
      (post post2 : List (String × Signature)) (th : Nat),
      (∀ p ∈ pre, ¬ calculateHammingDistance sig p.2 ≤ th) →
      calculateHammingDistance sig mh ≤ th →
      classify sig (pre ++ (name, mh) :: post) th
        = some (name, calculateHammingDistance sig mh)
      ∧ classify sig (pre ++ (name, mh) :: post) th
        = classify sig (pre ++ (name, mh) :: post2) th := by
  have key : ∀ (pre : List (String × Signature)) (name : String) (mh : Signature)
      (post : List (String × Signature)) (th : Nat),
      (∀ p ∈ pre, ¬ calculateHammingDistance sig p.2 ≤ th) →
      calculateHammingDistance sig mh ≤ th →
      classify sig (pre ++ (name, mh) :: post) th
        = some (name, calculateHammingDistance sig mh) := by
    intro pre
    induction pre with
    | nil =>
      intro name mh post th _ hm
      simp [classify_cons, hm]
    | cons p rest ih =>
      intro name mh post th hpre hm
      obtain ⟨pn, ph⟩ := p
      have hp : ¬ calculateHammingDistance sig ph ≤ th := by
        simpa using hpre (pn, ph) (by simp)
      rw [List.cons_append, classify_cons, if_neg hp]
      exact ih name mh post th (fun q hq => hpre q (by simp [hq])) hm
  intro pre name mh post post2 th hpre hm
  exact ⟨key pre name mh post th hpre hm,
    (key pre name mh post th hpre hm).trans (key pre name mh post2 th hpre hm).symm⟩

/-- Witness for `classify_first_match_shortcircuits`: with two references both
within the threshold and the second one strictly closer (distance 0 versus 2),
classification still returns the first. -/
theorem classify_first_match_shortcircuits_witness :
    classify ['0', '0', '0', '0']
      [("first", ['0', '0', '1', '1']), ("closer", ['0', '0', '0', '0'])]
      SIMILARITY_THRESHOLD = some ("first", 2) := by
  have h := (classify_first_match_shortcircuits ['0', '0', '0', '0'] []
    "first" ['0', '0', '1', '1'] [("closer", ['0', '0', '0', '0'])] []
    SIMILARITY_THRESHOLD (by simp) (by decide)).1
  rw [List.nil_append] at h
  rw [h]
  decide

/-- C3: the classifier reports no match exactly when the distance to every
reference in the store exceeds the threshold; the boundary is inclusive: with
the configured threshold 5, a reference at distance exactly 5 matches and a
reference at distance 6 does not. -/
theorem classify_none_iff_all_exceed (sig : Signature)
    (store : List (String × Signature)) :
    (classify sig store SIMILARITY_THRESHOLD = none ↔
      ∀ p ∈ store,
        SIMILARITY_THRESHOLD < calculateHammingDistance sig p.2)
    ∧ classify ['0', '0', '0', '0', '0', '0']
        [("ref", ['1', '1', '1', '1', '1', '0'])] SIMILARITY_THRESHOLD
        = some ("ref", 5)
    ∧ classify ['0', '0', '0', '0', '0', '0']
        [("ref", ['1', '1', '1', '1', '1', '1'])] SIMILARITY_THRESHOLD
        = none := by
  refine ⟨?_, by decide, by decide⟩
  induction store with
  | nil => simp [classify]
  | cons p rest ih =>
    obtain ⟨pn, ph⟩ := p
    rw [classify_cons]
    by_cases hp : calculateHammingDistance sig ph ≤ SIMILARITY_THRESHOLD
    · rw [if_pos hp]
      constructor
      · intro hc; simp at hc
      · intro hall
        have := hall (pn, ph) (by simp)
        simp only at this
        omega
    · rw [if_neg hp, ih]
      simp only [List.forall_mem_cons]
      have hlt : SIMILARITY_THRESHOLD < calculateHammingDistance sig ph := by
        omega
      simp [hlt]

/-- Witness for `classify_none_iff_all_exceed`: a store whose single reference
is at distance 6 from the signature yields no match. -/
theorem classify_none_iff_all_exceed_witness :
    classify ['0', '0', '0', '0', '0', '0']
      [("far", ['1', '1', '1', '1', '1', '1'])] SIMILARITY_THRESHOLD = none := by
  exact (classify_none_iff_all_exceed ['0', '0', '0', '0', '0', '0']
    [("far", ['1', '1', '1', '1', '1', '1'])]).1.mpr (by decide)

theorem ham_eq_zip_count (a : Signature) :
    ∀ b : Signature, a.length = b.length →
      calculateHammingDistance a b = ((a.zip b).countP fun p => p.1 != p.2) := by
  induction a with
  | nil =>
    intro b h
    simp [ham_nil_left]
  | cons x as ih =>
    intro b h
    cases b with
    | nil => simp at h
    | cons y bs =>
      rw [ham_cons_cons]
      simp only [List.zip_cons_cons, List.countP_cons]
      rw [ih bs (by simpa using h)]
      by_cases hxy : x = y <;> simp [hxy, Nat.add_comm]

theorem ham_self (a : Signature) : calculateHammingDistance a a = 0 := by
  induction a with
  | nil => exact ham_nil_left []
  | cons x as ih => rw [ham_cons_cons, if_pos rfl, ih]

theorem ham_symm_of_length (a : Signature) :
    ∀ b : Signature, a.length = b.length →
      calculateHammingDistance a b = calculateHammingDistance b a := by
  induction a with
  | nil =>
    intro b h
    have : b = [] := List.eq_nil_of_length_eq_zero h.symm
    rw [this]
  | cons x as ih =>
    intro b h
    cases b with
    | nil => simp at h
    | cons y bs =>
      rw [ham_cons_cons, ham_cons_cons, ih bs (by simpa using h)]
      by_cases hxy : x = y
      · rw [if_pos hxy, if_pos hxy.symm]
      · rw [if_neg hxy, if_neg (fun hyx => hxy hyx.symm)]

/-- C8: for signatures of equal length the distance function is symmetric,
the distance of a signature to itself is `0`, and the result is the count of
positions at which the two signatures differ. -/
theorem ham_symm_self_and_diff_count (a b : Signature) (h : a.length = b.length) :
    calculateHammingDistance a b = calculateHammingDistance b a
    ∧ calculateHammingDistance a a = 0
    ∧ calculateHammingDistance a b = ((a.zip b).countP fun p => p.1 != p.2) :=
  ⟨ham_symm_of_length a b h, ham_self a, ham_eq_zip_count a b h⟩

/-- Witness for `ham_symm_self_and_diff_count` on two concrete equal-length
signatures differing in one position. -/
theorem ham_symm_self_and_diff_count_witness :
    calculateHammingDistance ['0', '1'] ['0', '0']
        = calculateHammingDistance ['0', '0'] ['0', '1']
    ∧ calculateHammingDistance ['0', '1'] ['0', '1'] = 0
    ∧ calculateHammingDistance ['0', '1'] ['0', '0']
        = (((['0', '1'] : Signature).zip ['0', '0']).countP fun p => p.1 != p.2) :=
  ham_symm_self_and_diff_count ['0', '1'] ['0', '0'] (by decide)

/-- C10: `calculateHammingDistance` is total on all pairs of strings (it is a
plain function into `Nat`, raising nothing); when `hash2` is no longer than
`hash1` the result is the count of differing positions in the overlap plus
`hash1.length - hash2.length`, since every position of `hash1` beyond the end
of `hash2` compares unequal to the out-of-bounds `undefined`; and the function
is not symmetric on unequal-length inputs. -/
theorem ham_total_out_of_bounds_count (h1 : Signature) :
    ∀ h2 : Signature, h2.length ≤ h1.length →
      calculateHammingDistance h1 h2
          = ((h1.zip h2).countP fun p => p.1 != p.2)
            + (h1.length - h2.length)
      ∧ calculateHammingDistance ['a', 'b'] ['a'] = 1
      ∧ calculateHammingDistance ['a'] ['a', 'b'] = 0
      ∧ calculateHammingDistance ['a', 'b'] ['a']
          ≠ calculateHammingDistance ['a'] ['a', 'b'] := by
  induction h1 with
  | nil =>
    intro h2 h
    have : h2 = [] := List.eq_nil_of_length_eq_zero (Nat.le_zero.mp (by simpa using h))
    subst this
    refine ⟨?_, by decide, by decide, by decide⟩
    simp [ham_nil_left]
  | cons x as ih =>
    intro h2 h
    refine ⟨?_, by decide, by decide, by decide⟩
    cases h2 with
    | nil =>
      rw [ham_nil_right]
      simp
    | cons y bs =>
      rw [ham_cons_cons]
      simp only [List.zip_cons_cons, List.countP_cons, List.length_cons]
      rw [(ih bs (by simpa using h)).1]
      by_cases hxy : x = y
      all_goals simp [hxy]
      all_goals omega

/-- Witness for `ham_total_out_of_bounds_count` on a concrete pair where
`hash2` is one position shorter than `hash1`. -/
theorem ham_total_out_of_bounds_count_witness :
    calculateHammingDistance ['a', 'b', 'c'] ['a', 'x']
      = ((((['a', 'b', 'c'] : Signature)).zip ['a', 'x']).countP
          fun p => p.1 != p.2) + 1 :=
  (ham_total_out_of_bounds_count ['a', 'b', 'c'] ['a', 'x'] (by decide)).1

/-- C4 counterexample: on signatures of unequal length
`calculateHammingDistance` raises nothing and does not reject the input: it
returns `2` on a pair whose second signature is two positions shorter (the
out-of-bounds positions counting as differences), and returns `0` on the
reversed pair, silently ignoring the two extra positions of the longer
signature. -/
theorem ham_mismatch_counterexample :
    calculateHammingDistance ['a', 'b', 'c'] ['a'] = 2
    ∧ calculateHammingDistance ['a'] ['a', 'b', 'c'] = 0 := by
  decide

/-- C4 amended: on unequal-length inputs `calculateHammingDistance` does not
raise a length-mismatch error: it iterates over the positions of `hash1`
only, so positions of `hash2` past the end of `hash1` are silently truncated
(the result only depends on `hash2.take hash1.length`), and when `hash2` is
shorter every position of `hash1` from `hash2.length` onward counts as a
difference. -/
theorem ham_mismatch_truncates_and_counts (h1 : Signature) :
    ∀ h2 : Signature,
      calculateHammingDistance h1 h2
          = calculateHammingDistance h1 (h2.take h1.length)
      ∧ (h2.length ≤ h1.length →
          calculateHammingDistance h1 h2
            = calculateHammingDistance (h1.take h2.length) h2
              + (h1.length - h2.length)) := by
  induction h1 with
  | nil =>
    intro h2
    constructor
    · rw [ham_nil_left, ham_nil_left]
    · intro h
      have : h2 = [] := List.eq_nil_of_length_eq_zero (Nat.le_zero.mp (by simpa using h))
      subst this
      simp [ham_nil_left]
  | cons x as ih =>
    intro h2
    cases h2 with
    | nil =>
      constructor
      · simp
      · intro _
        simp [ham_nil_left, ham_nil_right]
    | cons y bs =>
      constructor
      · rw [List.length_cons, List.take_succ_cons, ham_cons_cons, ham_cons_cons,
          (ih bs).1]
      · intro h
        rw [List.length_cons, List.take_succ_cons, ham_cons_cons, ham_cons_cons,
          (ih bs).2 (by simpa using h)]
        simp only [List.length_cons]
        by_cases hxy : x = y
        · rw [if_pos hxy]
          omega
        · rw [if_neg hxy]
          omega

/-- Witness for `ham_mismatch_truncates_and_counts` at a concrete pair with
the second signature shorter by two. -/
theorem ham_mismatch_truncates_and_counts_witness :
    calculateHammingDistance ['a', 'b', 'c'] ['a']
      = calculateHammingDistance ((['a', 'b', 'c'] : Signature).take 1) ['a'] + 2 :=
  ((ham_mismatch_truncates_and_counts ['a', 'b', 'c'] ['a']).2 (by decide))

theorem processItem_eq_none_of_failure (mh : List (String × Signature))
    (item : ItemRun) (hfail : itemFailure item) :
    processItem mh item = none := by
  cases htu : item.nft.tokenUri with
  | none => simp [processItem, htu]
  | some u =>
    rcases hfail with ⟨e, he⟩ | he | ⟨e, he⟩
    · simp [processItem, htu, he]
    · simp [processItem, htu, he]
    · cases hm : item.metadata with
      | error e2 => simp [processItem, htu, hm]
      | ok o =>
        cases o with
        | none => simp [processItem, htu, hm]
        | some url => simp [processItem, htu, hm, he]

/-- C5: a failure while resolving metadata, fetching or hashing the image for
one item is caught and skips only that item: the failed item is not recorded,
and the censored list built over the full run equals the one built with the
failed item removed, whatever items precede or follow it. -/
theorem item_failure_skips_only_that_item (mh : List (String × Signature))
    (pre post : List ItemRun) (item : ItemRun) (hfail : itemFailure item) :
    processItem mh item = none
    ∧ buildNewCensoredList mh (pre ++ item :: post)
        = buildNewCensoredList mh (pre ++ post) := by
  have hnone := processItem_eq_none_of_failure mh item hfail
  refine ⟨hnone, ?_⟩
  simp [buildNewCensoredList, List.foldl_append, List.foldl_cons, hnone]

/-- Witness for `item_failure_skips_only_that_item`: a metadata fetch error on
the middle item of three leaves the other two items' accumulated list
untouched. -/
theorem item_failure_skips_only_that_item_witness :
    buildNewCensoredList [("m", ['0'])]
        [⟨⟨"1", some "u1"⟩, .ok (some "i1"), .ok ['0']⟩,
         ⟨⟨"2", some "u2"⟩, .error "fetch failed", .ok ['0']⟩,
         ⟨⟨"3", some "u3"⟩, .ok (some "i3"), .ok ['0']⟩]
      = buildNewCensoredList [("m", ['0'])]
        [⟨⟨"1", some "u1"⟩, .ok (some "i1"), .ok ['0']⟩,
         ⟨⟨"3", some "u3"⟩, .ok (some "i3"), .ok ['0']⟩]
    ∧ processItem [("m", ['0'])]
        ⟨⟨"2", some "u2"⟩, .error "fetch failed", .ok ['0']⟩ = none := by
  have h := item_failure_skips_only_that_item [("m", ['0'])]
    [⟨⟨"1", some "u1"⟩, .ok (some "i1"), .ok ['0']⟩]
    [⟨⟨"3", some "u3"⟩, .ok (some "i3"), .ok ['0']⟩]
    ⟨⟨"2", some "u2"⟩, .error "fetch failed", .ok ['0']⟩
    (Or.inl ⟨"fetch failed", rfl⟩)
  exact ⟨h.2, h.1⟩

theorem runCurator_newList (mh : List (String × Signature)) (fetch : FetchOutcome)
    (items : List ItemRun) :
    (runCurator mh fetch items).newCensoredList
      = buildNewCensoredList mh items := by
  rw [runCurator]
  split <;> rfl

theorem runCurator_published_cases (mh : List (String × Signature))
    (fetch : FetchOutcome) (items : List ItemRun) :
    (runCurator mh fetch items).publishedList
      = if reconcileChanged (getCurrentCensoredList fetch)
            (buildNewCensoredList mh items)
        then some (buildNewCensoredList mh items)
        else none := by
  rw [runCurator]
  split <;> simp_all

/-- C6: the Gist `PATCH` is issued exactly when the reconciliation decision is
`changed = true`; when the sorted key sequences of the previous and new lists
are equal, nothing is published. -/
theorem publish_only_when_changed (mh : List (String × Signature))
    (fetch : FetchOutcome) (items : List ItemRun) :
    ((runCurator mh fetch items).publishedList ≠ none ↔
      reconcileChanged (getCurrentCensoredList fetch)
        (buildNewCensoredList mh items) = true)
    ∧ (sortKeys (objectKeys (getCurrentCensoredList fetch))
          = sortKeys (objectKeys (buildNewCensoredList mh items)) →
        (runCurator mh fetch items).publishedList = none) := by
  constructor
  · rw [runCurator_published_cases]
    cases hc : reconcileChanged (getCurrentCensoredList fetch)
        (buildNewCensoredList mh items) <;> simp [hc]
  · intro hs
    have hc : reconcileChanged (getCurrentCensoredList fetch)
        (buildNewCensoredList mh items) = false := by
      rw [← Bool.not_eq_true, reconcileChanged_true_iff]
      simp [hs]
    rw [runCurator_published_cases, hc]
    simp

/-- Witness for `publish_only_when_changed`: a run whose fetch failed (previous
set empty) and that evaluated no items publishes nothing. -/
theorem publish_only_when_changed_witness :
    (runCurator [] (.fetchError "boom") []).publishedList = none :=
  (publish_only_when_changed [] (.fetchError "boom") []).2 rfl

theorem mem_objectKeys_setKey (obj : List (String × Bool)) (k : String)
    (v : Bool) (x : String) :
    x ∈ objectKeys (setKey obj k v) ↔ x ∈ objectKeys obj ∨ x = k := by
  by_cases hk : k ∈ objectKeys obj
  · have hkeys : objectKeys (setKey obj k v) = objectKeys obj := by
      simp only [setKey, if_pos hk]
      simp only [objectKeys, List.map_map]
      apply List.map_congr_left
      intro p _
      by_cases hp : p.1 = k <;> simp [hp]
    rw [hkeys]
    constructor
    · exact Or.inl
    · rintro (h | rfl)
      · exact h
      · exact hk
  · rw [objectKeys_setKey_new obj k v hk]
    simp

theorem mem_keys_build (mh : List (String × Signature)) (items : List ItemRun) :
    ∀ (acc : List (String × Bool)) (x : String),
      x ∈ objectKeys (items.foldl
          (fun acc item =>
            match processItem mh item with
            | some id => setKey acc id true
            | none => acc) acc) ↔
        x ∈ objectKeys acc ∨ ∃ item ∈ items, processItem mh item = some x := by
  induction items with
  | nil => simp
  | cons it items ih =>
    intro acc x
    rw [List.foldl_cons, ih]
    cases hp : processItem mh it with
    | none =>
      simp only [hp, List.exists_mem_cons_iff]
      constructor
      · exact fun h => h.elim Or.inl (fun h2 => Or.inr (Or.inr h2))
      · rintro (h | h | h)
        · exact Or.inl h
        · simp at h
        · exact Or.inr h
    | some id =>
      simp only [hp, mem_objectKeys_setKey, List.exists_mem_cons_iff,
        Option.some_inj]
      constructor
      · rintro ((h | rfl) | h)
        · exact Or.inl h
        · exact Or.inr (Or.inl rfl)
        · exact Or.inr (Or.inr h)
      · rintro (h | rfl | h)
        · exact Or.inl (Or.inl h)
        · exact Or.inl (Or.inr rfl)
        · exact Or.inr h

/-- C7: the censored list is rebuilt from scratch each run: a token id is a
key of the run's new list exactly when some enumerated item with that id
matched a reference during this run — the previously published list is never
patched in.  Consequently, an id on the previous list for which no item
matched this run (for instance because its metadata resolution failed) is
absent from the rebuilt list and forces a publish of the rebuilt list. -/
theorem rebuilt_list_is_fresh (mh : List (String × Signature))
    (fetch : FetchOutcome) (items : List ItemRun) (id : String) :
    (id ∈ objectKeys ((runCurator mh fetch items).newCensoredList) ↔
      ∃ item ∈ items, processItem mh item = some id)
    ∧ (id ∈ objectKeys (getCurrentCensoredList fetch) →
        (∀ item ∈ items, processItem mh item ≠ some id) →
        (runCurator mh fetch items).publishedList
          = some (buildNewCensoredList mh items)) := by
  have hmem : id ∈ objectKeys (buildNewCensoredList mh items) ↔
      ∃ item ∈ items, processItem mh item = some id := by
    rw [buildNewCensoredList, mem_keys_build]
    simp [objectKeys]
  constructor
  · rw [runCurator_newList]
    exact hmem
  · intro hid hnomatch
    have hnew : id ∉ objectKeys (buildNewCensoredList mh items) := by
      rw [hmem]
      rintro ⟨item, hin, hsome⟩
      exact hnomatch item hin hsome
    have hc : reconcileChanged (getCurrentCensoredList fetch)
        (buildNewCensoredList mh items) = true := by
      rw [reconcileChanged_true_iff]
      intro heq
      have hperm := (sortKeys_eq_iff _ _).mp heq
      exact hnew (hperm.mem_iff.mp hid)
    rw [runCurator_published_cases, hc]
    simp

/-- Witness for `rebuilt_list_is_fresh`: token 9 is on the previous list but
its metadata resolution fails this run; the run rebuilds an empty list and
publishes it (scenario C of the spec). -/
theorem rebuilt_list_is_fresh_witness :
    (runCurator [("m", ['0'])]
        (.response (some (.ok [("9", true)])))
        [⟨⟨"9", some "u9"⟩, .error "resolution failed", .ok ['0']⟩]).publishedList
      = some (buildNewCensoredList [("m", ['0'])]
          [⟨⟨"9", some "u9"⟩, .error "resolution failed", .ok ['0']⟩]) := by
  refine (rebuilt_list_is_fresh [("m", ['0'])]
      (.response (some (.ok [("9", true)])))
      [⟨⟨"9", some "u9"⟩, .error "resolution failed", .ok ['0']⟩] "9").2
    (by simp [getCurrentCensoredList, objectKeys]) ?_
  intro item hin
  simp only [List.mem_singleton] at hin
  subst hin
  simp [processItem]

/-- C9: fetching the previously published list yields the empty set on any
failure — a thrown fetch error, a response without the `censored-list.json`
file, or content whose parse throws — and only a successful parse yields its
list, so a first run starts from an empty previous set instead of aborting. -/
theorem fetch_failure_degrades_to_empty (msg badContent : String)
    (l : List (String × Bool)) :
    getCurrentCensoredList (.fetchError msg) = []
    ∧ getCurrentCensoredList (.response none) = []
    ∧ getCurrentCensoredList (.response (some (.error badContent))) = []
    ∧ getCurrentCensoredList (.response (some (.ok l))) = l :=
  ⟨rfl, rfl, rfl, rfl⟩

end Curator
